import Mathlib

/-!
Formal model of `scan.js`, a serial "Pi Mainnet node checker".

The script probes every (server, wallet) pair with an HTTP GET built by
`buildUrl`, classifies each response in `checkUrl` (valid / novalid /
timeout), and drives an outer loop over servers with an inner loop over
wallets in `main`, appending results to `valid.txt`, `novalid.txt` and
`timeout.txt` and keeping three counters.

Modelling conventions:
* JavaScript strings are modelled as Lean `String`s (sequences of Unicode
  scalar values); the data the program handles comes from UTF-8 decoded
  files and HTTP bodies, so lone surrogates do not arise.
* `JSON.parse` is modelled by `jsonParse`, a fuel-based recursive-descent
  reading of the JSON grammar (ECMA-404 as accepted by `JSON.parse`):
  whitespace, `true`/`false`/`null`, strings with `\uXXXX` escapes
  (surrogate pairs combined; unpaired surrogates approximated by U+FFFD),
  numbers, arrays and objects (duplicate keys: the last value wins).
  JSON numbers are modelled as exact rationals rather than IEEE doubles;
  none of the results below depends on double rounding.
* JavaScript truthiness of parsed JSON values is modelled by `truthy`;
  property access on a parsed value by `jsGet` (property access on `null`
  throws, which the source catches in its `catch` block).
* The network is an oracle `net : String → NetOutcome` mapping the request
  URL to either a rejection (an error with a `name` and a `message`; the
  7000 ms timeout surfaces as an error named `AbortError`) or a response
  with a status code and a body. `res.ok` is `200 ≤ status ≤ 299`.
* The driver state `St` carries the in-memory valid list, the three
  counters, the three output file contents (appended exactly as the source
  appends them) and a trace of events: one `Event.probe` per issued request
  followed by one write event per classification.
* File loading (`split(/\r?\n/).map(trim).filter(Boolean)`) is modelled by
  `parseLines`: split on `\n`, strip one `\r` immediately preceding each
  split point, JavaScript `trim`, drop empty lines.
-/

set_option maxRecDepth 8192

/-! ## Constants and basic characters -/

def DEFAULT_PORT : Nat := 31401

def TIMEOUT_MS : Nat := 7000

def quoteC : Char := Char.ofNat 34

def backslashC : Char := Char.ofNat 92

def lbraceC : Char := Char.ofNat 123

def rbraceC : Char := Char.ofNat 125

def nlC : Char := Char.ofNat 10

def crC : Char := Char.ofNat 13

def aposC : Char := Char.ofNat 39

/-! ## Substring search (String.prototype.includes) -/

def startsWithL : List Char → List Char → Bool
  | _, [] => true
  | [], _ :: _ => false
  | h :: hs, n :: ns => h == n && startsWithL hs ns

def includesL : List Char → List Char → Bool
  | [], needle => needle.isEmpty
  | h :: t, needle => startsWithL (h :: t) needle || includesL t needle

/-! ## encodeURIComponent -/

def hexDigitU (n : Nat) : Char :=
  if n < 10 then Char.ofNat (48 + n) else Char.ofNat (55 + n)

def pctEncodeByte (b : Nat) : List Char :=
  ['%', hexDigitU (b / 16), hexDigitU (b % 16)]

def utf8BytesOf (c : Char) : List Nat :=
  let n := c.toNat
  if n < 0x80 then [n]
  else if n < 0x800 then [0xC0 + n / 64, 0x80 + n % 64]
  else if n < 0x10000 then [0xE0 + n / 4096, 0x80 + (n / 64) % 64, 0x80 + n % 64]
  else [0xF0 + n / 262144, 0x80 + (n / 4096) % 64, 0x80 + (n / 64) % 64, 0x80 + n % 64]

def uriUnreserved (c : Char) : Bool :=
  let n := c.toNat
  decide ((65 ≤ n ∧ n ≤ 90) ∨ (97 ≤ n ∧ n ≤ 122) ∨ (48 ≤ n ∧ n ≤ 57)) ||
    c == '-' || c == '_' || c == '.' || c == '!' || c == '~' || c == '*' ||
    c == aposC || c == '(' || c == ')'

def encodeChar (c : Char) : List Char :=
  if uriUnreserved c then [c]
  else (utf8BytesOf c).foldr (fun b acc => pctEncodeByte b ++ acc) []

def encodeURIComponent (s : String) : String :=
  String.mk (s.data.foldr (fun c acc => encodeChar c ++ acc) [])

/-! ## buildUrl (scan.js lines 12-15) -/

def buildUrl (server wallet : String) : String :=
  let host := if server.contains ':' then server else server ++ ":" ++ Nat.repr DEFAULT_PORT
  "http://" ++ host ++ "/claimable_balances?claimant=" ++ encodeURIComponent wallet

/-! ## JSON values and JSON.parse -/

inductive JsValue where
  | null : JsValue
  | bool (b : Bool) : JsValue
  | num (q : Rat) : JsValue
  | str (s : String) : JsValue
  | arr (elems : List JsValue) : JsValue
  | obj (members : List (String × JsValue)) : JsValue

def jsonWsC (c : Char) : Bool :=
  c == ' ' || c == Char.ofNat 9 || c == Char.ofNat 10 || c == Char.ofNat 13

def skipWs (cs : List Char) : List Char := cs.dropWhile jsonWsC

def hexVal (c : Char) : Option Nat :=
  let n := c.toNat
  if 48 ≤ n ∧ n ≤ 57 then some (n - 48)
  else if 97 ≤ n ∧ n ≤ 102 then some (n - 87)
  else if 65 ≤ n ∧ n ≤ 70 then some (n - 55)
  else none

def parseHex4 : List Char → Option (Nat × List Char)
  | a :: b :: c :: d :: rest =>
    match hexVal a, hexVal b, hexVal c, hexVal d with
    | some x, some y, some z, some w => some (4096 * x + 256 * y + 16 * z + w, rest)
    | _, _, _, _ => none
  | _ => none

def replC : Char := Char.ofNat 0xFFFD

def escChar (e : Char) : Option Char :=
  if e == quoteC then some quoteC
  else if e == backslashC then some backslashC
  else if e == '/' then some '/'
  else if e == 'b' then some (Char.ofNat 8)
  else if e == 'f' then some (Char.ofNat 12)
  else if e == 'n' then some (Char.ofNat 10)
  else if e == 'r' then some (Char.ofNat 13)
  else if e == 't' then some (Char.ofNat 9)
  else none

def consFst (c : Char) : Option (List Char × List Char) → Option (List Char × List Char)
  | some (s, r) => some (c :: s, r)
  | none => none

def parseStrBody : Nat → List Char → Option (List Char × List Char)
  | 0, _ => none
  | _ + 1, [] => none
  | fuel + 1, c :: rest =>
    if c == quoteC then some ([], rest)
    else if c == backslashC then
      match rest with
      | [] => none
      | e :: rest2 =>
        if e == 'u' then
          match parseHex4 rest2 with
          | none => none
          | some (n, rest3) =>
            if 0xD800 ≤ n ∧ n ≤ 0xDBFF then
              match rest3 with
              | b1 :: u1 :: rest4 =>
                if b1 == backslashC && u1 == 'u' then
                  match parseHex4 rest4 with
                  | some (m, rest5) =>
                    if 0xDC00 ≤ m ∧ m ≤ 0xDFFF then
                      consFst (Char.ofNat (0x10000 + 1024 * (n - 0xD800) + (m - 0xDC00)))
                        (parseStrBody fuel rest5)
                    else consFst replC (parseStrBody fuel rest3)
                  | none => consFst replC (parseStrBody fuel rest3)
                else consFst replC (parseStrBody fuel rest3)
              | _ => consFst replC (parseStrBody fuel rest3)
            else if 0xDC00 ≤ n ∧ n ≤ 0xDFFF then consFst replC (parseStrBody fuel rest3)
            else consFst (Char.ofNat n) (parseStrBody fuel rest3)
        else
          match escChar e with
          | some ch => consFst ch (parseStrBody fuel rest2)
          | none => none
    else if c.toNat < 32 then none
    else consFst c (parseStrBody fuel rest)

def digitsToNat (ds : List Char) : Nat :=
  ds.foldl (fun a c => 10 * a + (c.toNat - 48)) 0

def isDigitC (c : Char) : Bool := decide (48 ≤ c.toNat ∧ c.toNat ≤ 57)

def parseFracPart (cs : List Char) : Option (List Char × List Char) :=
  match cs with
  | d :: r =>
    if d == '.' then
      let ds := r.takeWhile isDigitC
      if ds.isEmpty then none else some (ds, r.dropWhile isDigitC)
    else some ([], cs)
  | [] => some ([], cs)

def parseExpPart (cs : List Char) : Option (Int × List Char) :=
  match cs with
  | e :: r =>
    if e == 'e' || e == 'E' then
      let (sgn, r1) :=
        match r with
        | s :: r2 => if s == '+' then ((1 : Int), r2) else if s == '-' then (-1, r2) else (1, r)
        | [] => ((1 : Int), r)
      let ds := r1.takeWhile isDigitC
      if ds.isEmpty then none
      else some (sgn * (digitsToNat ds : Int), r1.dropWhile isDigitC)
    else some (0, cs)
  | [] => some (0, cs)

def parseNum (cs : List Char) : Option (Rat × List Char) :=
  let (neg, cs1) :=
    match cs with
    | c :: r => if c == '-' then (true, r) else (false, c :: r)
    | [] => (false, [])
  match cs1 with
  | [] => none
  | c :: r =>
    if isDigitC c then
      let (intDigits, rest1) :=
        if c == '0' then ([c], r) else (cs1.takeWhile isDigitC, cs1.dropWhile isDigitC)
      match parseFracPart rest1 with
      | none => none
      | some (fracDigits, rest2) =>
        match parseExpPart rest2 with
        | none => none
        | some (e, rest3) =>
          let mant : Nat := digitsToNat (intDigits ++ fracDigits)
          let q0 : Rat := (mant : Rat) / ((10 : Rat) ^ fracDigits.length)
          let q1 : Rat := if 0 ≤ e then q0 * (10 : Rat) ^ e.toNat else q0 / (10 : Rat) ^ (-e).toNat
          some (if neg then -q1 else q1, rest3)
    else none

def expectChars : List Char → List Char → Option (List Char)
  | [], cs => some cs
  | p :: ps, c :: cs => if c == p then expectChars ps cs else none
  | _ :: _, [] => none

mutual

def parseValue : Nat → List Char → Option (JsValue × List Char)
  | 0, _ => none
  | fuel + 1, cs0 =>
    match skipWs cs0 with
    | [] => none
    | c :: rest =>
      if c == quoteC then
        match parseStrBody (rest.length + 1) rest with
        | some (s, r) => some (JsValue.str (String.mk s), r)
        | none => none
      else if c == 't' then
        match expectChars ['r', 'u', 'e'] rest with
        | some r => some (JsValue.bool true, r)
        | none => none
      else if c == 'f' then
        match expectChars ['a', 'l', 's', 'e'] rest with
        | some r => some (JsValue.bool false, r)
        | none => none
      else if c == 'n' then
        match expectChars ['u', 'l', 'l'] rest with
        | some r => some (JsValue.null, r)
        | none => none
      else if c == '[' then
        match skipWs rest with
        | b :: r1 => if b == ']' then some (JsValue.arr [], r1) else
            match parseElems fuel (b :: r1) with
            | some (vs, r) => some (JsValue.arr vs, r)
            | none => none
        | [] => none
      else if c == lbraceC then
        match skipWs rest with
        | b :: r1 => if b == rbraceC then some (JsValue.obj [], r1) else
            match parseMembers fuel (b :: r1) with
            | some (ms, r) => some (JsValue.obj ms, r)
            | none => none
        | [] => none
      else
        match parseNum (c :: rest) with
        | some (q, r) => some (JsValue.num q, r)
        | none => none

def parseElems : Nat → List Char → Option (List JsValue × List Char)
  | 0, _ => none
  | fuel + 1, cs =>
    match parseValue fuel cs with
    | none => none
    | some (v, r) =>
      match skipWs r with
      | c :: r2 =>
        if c == ',' then
          match parseElems fuel r2 with
          | some (vs, r3) => some (v :: vs, r3)
          | none => none
        else if c == ']' then some ([v], r2)
        else none
      | [] => none

def parseMembers : Nat → List Char → Option (List (String × JsValue) × List Char)
  | 0, _ => none
  | fuel + 1, cs =>
    match skipWs cs with
    | c :: r =>
      if c == quoteC then
        match parseStrBody (r.length + 1) r with
        | some (k, r1) =>
          match skipWs r1 with
          | d :: r2 =>
            if d == ':' then
              match parseValue fuel r2 with
              | some (v, r3) =>
                match skipWs r3 with
                | e :: r4 =>
                  if e == ',' then
                    match parseMembers fuel r4 with
                    | some (ms, r5) => some ((String.mk k, v) :: ms, r5)
                    | none => none
                  else if e == rbraceC then some ([(String.mk k, v)], r4)
                  else none
                | [] => none
              | none => none
            else none
          | [] => none
        | none => none
      else none
    | [] => none

end

def jsonParse (s : String) : Option JsValue :=
  match parseValue (2 * s.data.length + 8) s.data with
  | some (v, rest) => if (skipWs rest).isEmpty then some v else none
  | none => none

/-! ## JavaScript semantics on parsed values: truthiness, property access,
template-literal stringification -/

def truthy : JsValue → Bool
  | JsValue.null => false
  | JsValue.bool b => b
  | JsValue.num q => decide (q ≠ 0)
  | JsValue.str s => decide (s ≠ "")
  | JsValue.arr _ => true
  | JsValue.obj _ => true

def lookupLast (k : String) : List (String × JsValue) → Option JsValue
  | [] => none
  | (k', v) :: rest =>
    match lookupLast k rest with
    | some r => some r
    | none => if k' == k then some v else none

/-- Property access `v[k]` for the (non-null) values produced by
`JSON.parse`: objects look the key up (duplicate keys: last value wins,
as with `JSON.parse`), every other value has no own properties named by
the keys this program reads, hence `undefined`, modelled by `none`. -/
def jsGet : JsValue → String → Option JsValue
  | JsValue.obj ms, k => lookupLast k ms
  | _, _ => none

def truthyOpt : Option JsValue → Bool
  | some v => truthy v
  | none => false

def intStr (i : Int) : String :=
  if i < 0 then "-" ++ Nat.repr i.natAbs else Nat.repr i.natAbs

def decExp (q : Rat) : Option Nat :=
  (List.range 400).find? (fun k => (q * (10 : Rat) ^ k).den == 1)

def padDigits (len : Nat) (ds : List Char) : List Char :=
  List.replicate (len - ds.length) '0' ++ ds

/-- Decimal rendering of a JSON number, as the `${...}` template literal
renders it. Integers match JavaScript exactly for the magnitudes this
program can meet; finite decimals are rendered in positional notation
(JavaScript's exponent forms for extreme magnitudes are not modelled). -/
def numToString (q : Rat) : String :=
  if q.den = 1 then intStr q.num
  else
    match decExp q with
    | some k =>
      let n := (q * (10 : Rat) ^ k).num
      let sign := if n < 0 then "-" else ""
      let ds := padDigits (k + 1) (Nat.repr n.natAbs).data
      sign ++ String.mk (ds.take (ds.length - k)) ++ "." ++ String.mk (ds.drop (ds.length - k))
    | none => "?"

mutual

/-- String conversion of a parsed JSON value as a `${...}` template
literal performs it. -/
def jsToString : JsValue → String
  | JsValue.null => "null"
  | JsValue.bool b => if b then "true" else "false"
  | JsValue.num q => numToString q
  | JsValue.str s => s
  | JsValue.arr xs => jsArrJoin xs
  | JsValue.obj _ => "[object Object]"

def jsArrJoin : List JsValue → String
  | [] => ""
  | [x] =>
    match x with
    | JsValue.null => ""
    | v => jsToString v
  | x :: rest =>
    (match x with
     | JsValue.null => ""
     | v => jsToString v) ++ "," ++ jsArrJoin rest

end

/-! ## checkUrl (scan.js lines 30-53) -/

inductive ProbeResult where
  | valid (details : String) : ProbeResult
  | novalid (details : String) : ProbeResult
  | timeout (details : String) : ProbeResult
deriving DecidableEq

/-- `Error.prototype.toString` for an error with the given `name` and
`message`, i.e. `String(err)`. -/
def errString (name msg : String) : String :=
  if name = "" then msg else if msg = "" then name else name ++ ": " ++ msg

/-- Outcome of `fetch`: either a rejection carrying the error's `name` and
`message` (the 7000 ms timeout abort surfaces as `name = "AbortError"`),
or a settled response with its status code and body text. -/
inductive NetOutcome where
  | err (name msg : String) : NetOutcome
  | resp (status : Nat) (body : String) : NetOutcome

/-- The `try { ... } catch` body of `checkUrl` after a successful response
and `JSON.parse`: scan.js lines 38-42. Mirrors the JavaScript truthiness
tests `j && j._embedded && Array.isArray(j._embedded.records) &&
j._embedded.records.length > 0` and `r.asset && r.amount`; when the first
record is `null`, `r.asset` throws a `TypeError`, which the enclosing
`catch` turns into the `"non-json response"` classification. -/
def classifyParsed (j : JsValue) : ProbeResult :=
  if truthy j then
    match jsGet j "_embedded" with
    | some e =>
      if truthy e then
        match jsGet e "records" with
        | some (JsValue.arr recs) =>
          match recs with
          | [] => ProbeResult.novalid "json but structure mismatch"
          | JsValue.null :: _ => ProbeResult.novalid "non-json response"
          | r :: _ =>
            if truthyOpt (jsGet r "asset") && truthyOpt (jsGet r "amount") then
              ProbeResult.valid ("amount=" ++ jsToString ((jsGet r "amount").getD JsValue.null))
            else ProbeResult.novalid "json but structure mismatch"
        | _ => ProbeResult.novalid "json but structure mismatch"
      else ProbeResult.novalid "json but structure mismatch"
    | none => ProbeResult.novalid "json but structure mismatch"
  else ProbeResult.novalid "json but structure mismatch"

/-- Classification of a success-status response body: scan.js lines 34-48.
The substring pre-check, then `JSON.parse` under `try`/`catch`. -/
def checkBody (body : String) : ProbeResult :=
  if includesL body.data "_embedded".data && includesL body.data "records".data then
    match jsonParse body with
    | none => ProbeResult.novalid "non-json response"
    | some j => classifyParsed j
  else ProbeResult.novalid "no _embedded/records in response"

/-- `checkUrl` as a function of the network outcome for the probed URL:
scan.js lines 30-53. -/
def checkUrl : NetOutcome → ProbeResult
  | NetOutcome.err name msg =>
    if name = "AbortError" then ProbeResult.timeout "fetch timeout"
    else ProbeResult.timeout (if msg = "" then errString name msg else msg)
  | NetOutcome.resp status body =>
    if 200 ≤ status ∧ status ≤ 299 then checkBody body
    else ProbeResult.novalid ("HTTP " ++ Nat.repr status)

/-- Variant of `checkBody` following the spec's design note: parse and
shape-check the JSON directly, without the substring pre-check. -/
def checkBodyDirect (body : String) : ProbeResult :=
  match jsonParse body with
  | none => ProbeResult.novalid "non-json response"
  | some j => classifyParsed j

/-- `checkUrl` with `checkBodyDirect` in place of `checkBody`. -/
def checkUrlDirect : NetOutcome → ProbeResult
  | NetOutcome.err name msg =>
    if name = "AbortError" then ProbeResult.timeout "fetch timeout"
    else ProbeResult.timeout (if msg = "" then errString name msg else msg)
  | NetOutcome.resp status body =>
    if 200 ≤ status ∧ status ≤ 299 then checkBodyDirect body
    else ProbeResult.novalid ("HTTP " ++ Nat.repr status)

def statusOf : ProbeResult → String
  | ProbeResult.valid _ => "valid"
  | ProbeResult.novalid _ => "novalid"
  | ProbeResult.timeout _ => "timeout"

/-! ## File loading: split(/\r?\n/).map(trim).filter(Boolean)
(scan.js lines 75-76 and 87) -/

/-- Split on `'\n'`; `[]` input yields `[[]]`, i.e. one empty piece. -/
def splitOnNl : List Char → List (List Char)
  | [] => [[]]
  | c :: rest =>
    if c = nlC then [] :: splitOnNl rest
    else
      match splitOnNl rest with
      | p :: ps => (c :: p) :: ps
      | [] => [[c]]

/-- Remove a single `'\r'` at the end of a piece (the `\r` consumed by the
`\r?\n` separator). -/
def stripOneCr (cs : List Char) : List Char :=
  match cs.getLast? with
  | some c => if c = crC then cs.dropLast else cs
  | none => cs

/-- Strip the optional `'\r'` before every split point: every piece but the
last lost its following `'\n'` to the separator, so it sheds one trailing
`'\r'`; the last piece was not followed by a separator. -/
def stripSeps : List (List Char) → List (List Char)
  | [] => []
  | [p] => [p]
  | p :: ps => stripOneCr p :: stripSeps ps

/-- The WhiteSpace and LineTerminator code points recognised by
`String.prototype.trim`. -/
def jsWsChar (c : Char) : Bool :=
  let n := c.toNat
  decide (n = 9 ∨ n = 10 ∨ n = 11 ∨ n = 12 ∨ n = 13 ∨ n = 32 ∨ n = 160 ∨ n = 0x1680 ∨
    (0x2000 ≤ n ∧ n ≤ 0x200A) ∨ n = 0x2028 ∨ n = 0x2029 ∨ n = 0x202F ∨ n = 0x205F ∨
    n = 0x3000 ∨ n = 0xFEFF)

def jsTrimL (cs : List Char) : List Char :=
  ((cs.dropWhile jsWsChar).reverse.dropWhile jsWsChar).reverse

def jsTrim (s : String) : String := String.mk (jsTrimL s.data)

/-- `raw.split(/\r?\n/).map(x => x.trim()).filter(Boolean)`. -/
def parseLines (raw : String) : List String :=
  ((stripSeps (splitOnNl raw.data)).map (fun l => String.mk (jsTrimL l))).filter
    (fun x => x != "")

/-! ## The driver (scan.js main, lines 55-147) -/

/-- Observable actions of the driver, in program order: one `probe` per
issued HTTP request, then one write event recording the classification and
the output-file append made for it. -/
inductive Event where
  | probe (server wallet : String) : Event
  | wValid (server : String) : Event
  | wNovalid (server wallet details : String) : Event
  | wTimeout (server details : String) : Event
deriving DecidableEq

/-- Driver state: the in-memory valid list, the three output file
contents, the three counters (scan.js line 98), and the event trace. -/
structure St where
  validList : List String
  validFile : String
  novalidFile : String
  timeoutFile : String
  statsValid : Nat
  statsNovalid : Nat
  statsTimeout : Nat
  events : List Event
deriving DecidableEq

/-- One probe of `wallet` against `server` and the handling of its result:
scan.js lines 114-134. The probe is issued, then exactly one branch
appends one line to one file and increments one counter. -/
def stepResult (server wallet : String) (r : ProbeResult) (st : St) : St :=
  match r with
  | ProbeResult.valid _ =>
    { st with
      events := st.events ++ [Event.probe server wallet, Event.wValid server],
      validFile := st.validFile ++ server ++ "\n",
      validList := st.validList ++ [server],
      statsValid := st.statsValid + 1 }
  | ProbeResult.novalid d =>
    { st with
      events := st.events ++ [Event.probe server wallet, Event.wNovalid server wallet d],
      novalidFile := st.novalidFile ++ server ++ "|" ++ wallet ++ "|" ++ d ++ "\n",
      statsNovalid := st.statsNovalid + 1 }
  | ProbeResult.timeout d =>
    { st with
      events := st.events ++ [Event.probe server wallet, Event.wTimeout server d],
      timeoutFile := st.timeoutFile ++ server ++ "|" ++ d ++ "\n",
      statsTimeout := st.statsTimeout + 1 }

/-- The inner wallet loop (scan.js lines 112-135): probe wallets in order,
stopping after the first `valid` result (`break`). -/
def procWallets (net : String → NetOutcome) (server : String) :
    List String → St → St
  | [], st => st
  | w :: ws, st =>
    let r := checkUrl (net (buildUrl server w))
    let st' := stepResult server w r st
    match r with
    | ProbeResult.valid _ => st'
    | _ => procWallets net server ws st'

/-- One iteration of the outer server loop (scan.js lines 100-142): skip
when already in the valid list, else run the wallet loop. -/
def procServer (net : String → NetOutcome) (wallets : List String)
    (st : St) (server : String) : St :=
  if st.validList.contains server then st
  else procWallets net server wallets st

/-- The outer server loop. -/
def runServers (net : String → NetOutcome) (wallets servers : List String)
    (st : St) : St :=
  servers.foldl (procServer net wallets) st

/-- The files the script touches, by content; `none` means the file does
not exist. -/
structure FS where
  serversTxt : Option String
  walletsTxt : Option String
  validTxt : Option String
  novalidTxt : Option String
  timeoutTxt : Option String
deriving DecidableEq

inductive MainOut where
  | fatal (code : Nat) (fs : FS) : MainOut
  | done (fs : FS) (st : St) : MainOut
deriving DecidableEq

/-- The initial driver state built by `main` (scan.js lines 84-98): the
valid list read from `valid.txt` (absent file = empty list), `valid.txt`
kept as is, `novalid.txt` and `timeout.txt` truncated, counters zero. -/
def initSt (validTxt : Option String) : St :=
  { validList := match validTxt with | some v => parseLines v | none => [],
    validFile := validTxt.getD "",
    novalidFile := "",
    timeoutFile := "",
    statsValid := 0,
    statsNovalid := 0,
    statsTimeout := 0,
    events := [] }

/-- `main` (scan.js lines 55-147) as a function of the file system and the
network oracle. Exits with code 1 if `servers.txt` or `wallets.txt` is
missing (lines 61-73) or parses to an empty list (lines 78-79) — in
program order, before `valid.txt` is read and before `novalid.txt` and
`timeout.txt` are truncated (lines 92-96). -/
def runMain (net : String → NetOutcome) (fs : FS) : MainOut :=
  match fs.serversTxt with
  | none => MainOut.fatal 1 fs
  | some serversRaw =>
    match fs.walletsTxt with
    | none => MainOut.fatal 1 fs
    | some walletsRaw =>
      let servers := parseLines serversRaw
      let wallets := parseLines walletsRaw
      if servers.isEmpty then MainOut.fatal 1 fs
      else if wallets.isEmpty then MainOut.fatal 1 fs
      else
        let stF := runServers net wallets servers (initSt fs.validTxt)
        MainOut.done
          { fs with
            validTxt := some stF.validFile,
            novalidTxt := some stF.novalidFile,
            timeoutTxt := some stF.timeoutFile }
          stF

/-! ## Derived observations used by the statements -/

def probesOf (es : List Event) : List (String × String) :=
  es.filterMap (fun e => match e with | Event.probe s w => some (s, w) | _ => none)

def probeCount (es : List Event) : Nat :=
  es.countP (fun e => match e with | Event.probe _ _ => true | _ => false)

/-- Invariant of claim C6: the three counters sum to the number of probes
issued so far. -/
def countsInv (st : St) : Prop :=
  st.statsValid + st.statsNovalid + st.statsTimeout = probeCount st.events

def isValidRes : ProbeResult → Bool
  | ProbeResult.valid _ => true
  | _ => false

/-- A string as produced by `parseLines`: nonempty, trim-invariant, free of
`'\n'` (and hence not ending in `'\r'`, since trim strips it). -/
def cleanTokB (s : String) : Bool :=
  s != "" && jsTrim s == s && !(s.data.contains nlC)

/-- The file content ends at a line boundary: empty or final `'\n'`. -/
def endsNlB (s : String) : Bool :=
  match s.data.getLast? with
  | none => true
  | some c => c == nlC

/-- The round-trip invariant of claim C7: the valid file ends at a line
boundary and every server with a `wValid` event so far is recovered by
re-reading the file. -/
def fileInv (st : St) : Prop :=
  endsNlB st.validFile = true ∧
    ∀ s : String, Event.wValid s ∈ st.events → s ∈ parseLines st.validFile

/-! ## Concrete fixtures for counterexamples and witnesses -/

/-- Success body of the valid shape: one record with truthy `asset` and
`amount`. -/
def bodyValid : String :=
  "\x7b\"_embedded\":\x7b\"records\":[\x7b\"asset\":\"a\",\"amount\":\"1\"\x7d]\x7d\x7d"

/-- Success body whose first record carries `asset` and `amount` fields,
but with `asset` the empty string (falsy in JavaScript). -/
def bodyAssetEmpty : String :=
  "\x7b\"_embedded\":\x7b\"records\":[\x7b\"asset\":\"\",\"amount\":\"1\"\x7d]\x7d\x7d"

/-- Success body that parses as JSON with an empty records array. -/
def bodyEmptyRecs : String :=
  "\x7b\"_embedded\":\x7b\"records\":[]\x7d\x7d"

/-- Success body spelling the `_embedded` key with a `\u005f` escape: it
parses to the valid shape, yet the text contains no literal substring
`_embedded`. -/
def bodyEscapedKey : String :=
  "\x7b\"\\u005fembedded\":\x7b\"records\":[\x7b\"asset\":\"a\",\"amount\":\"1\"\x7d]\x7d\x7d"

/-- Parse of `bodyValid`. -/
def jValid : JsValue :=
  JsValue.obj [("_embedded", JsValue.obj [("records",
    JsValue.arr [JsValue.obj [("asset", JsValue.str "a"), ("amount", JsValue.str "1")]])])]

/-- Parse of `bodyEmptyRecs`. -/
def jEmptyRecs : JsValue :=
  JsValue.obj [("_embedded", JsValue.obj [("records", JsValue.arr [])])]

/-- Oracle: every URL answers 200 with `bodyValid`. -/
def netGood : String → NetOutcome := fun _ => NetOutcome.resp 200 bodyValid

/-- Oracle: every URL fails with a connection error. -/
def netDown : String → NetOutcome := fun _ => NetOutcome.err "Error" "connect ECONNREFUSED"

/-- A state whose loaded valid list already contains server `"a"`. -/
def stWithA : St := initSt (some "a\n")

/-- A state loaded from a `valid.txt` holding `"x"` with no trailing
newline. -/
def stNoNl : St := initSt (some "x")

/-- An empty initial state (no prior `valid.txt`). -/
def stFresh : St := initSt none

/-- A file system without `servers.txt` but with pre-existing output
files. -/
def fsNoServers : FS :=
  { serversTxt := none, walletsTxt := some "w1\n", validTxt := some "old\n",
    novalidTxt := some "prior|w|HTTP 500\n", timeoutTxt := some "prior|fetch timeout\n" }

/-! ## Spec-side predicates used in statements -/

/-- The path condition under which `classifyParsed` returns `valid`,
except that the first record's fields are only required truthy, not merely
present: mirrors `j && j._embedded && Array.isArray(j._embedded.records)
&& j._embedded.records.length > 0` and `r.asset && r.amount`. -/
def validShape (j : JsValue) : Bool :=
  if truthy j then
    match jsGet j "_embedded" with
    | some e =>
      if truthy e then
        match jsGet e "records" with
        | some (JsValue.arr recs) =>
          match recs with
          | [] => false
          | r :: _ => truthyOpt (jsGet r "asset") && truthyOpt (jsGet r "amount")
        | _ => false
      else false
    | none => false
  else false

/-- The path on which `r.asset` throws a `TypeError` (first record is
JSON `null`). -/
def throwCase (j : JsValue) : Bool :=
  if truthy j then
    match jsGet j "_embedded" with
    | some e =>
      if truthy e then
        match jsGet e "records" with
        | some (JsValue.arr recs) =>
          match recs with
          | JsValue.null :: _ => true
          | _ => false
        | _ => false
      else false
    | none => false
  else false

/-- The antecedent of claim C1, in the claim's own words: the body is
valid JSON containing a non-empty `_embedded.records` array whose first
record has both an `asset` field and an `amount` field (mere presence). -/
def firstRecordHasAssetAmount (body : String) : Bool :=
  match jsonParse body with
  | some j =>
    match jsGet j "_embedded" with
    | some e =>
      match jsGet e "records" with
      | some (JsValue.arr (r :: _)) => (jsGet r "asset").isSome && (jsGet r "amount").isSome
      | _ => false
    | none => false
  | none => false

/-- The server an event is about. -/
def eventServer : Event → String
  | Event.probe s _ => s
  | Event.wValid s => s
  | Event.wNovalid s _ _ => s
  | Event.wTimeout s _ => s

/-- The `.map(trim).filter(Boolean)` tail of `parseLines`. -/
def filtTrim (P : List (List Char)) : List String :=
  (P.map (fun l => String.mk (jsTrimL l))).filter (fun x => x != "")

/-! # Theorems -/

/-! ## Sanity checks of the JSON model against JSON.parse behaviour -/

theorem sanity_parse_valid : jsonParse bodyValid = some jValid := rfl

theorem sanity_parse_rejects : (jsonParse "01").isSome = false ∧ (jsonParse "1.").isSome = false ∧
    (jsonParse "").isSome = false := by decide

/-! ## C5: buildUrl -/

/-- C5: `buildUrl` is a pure total function returning
`http://<host>/claimable_balances?claimant=<encoded-wallet>`, where
`<host>` is the server string verbatim when it contains a colon and
otherwise the server string with the fixed default port 31401 appended,
and `<encoded-wallet>` is the percent-encoding of the wallet string. -/
theorem c5_buildUrl_shape (server wallet : String) :
    buildUrl server wallet =
      "http://" ++ (if server.contains ':' then server else server ++ ":31401") ++
        "/claimable_balances?claimant=" ++ encodeURIComponent wallet := by
  unfold buildUrl
  split
  · rfl
  · rw [String.append_assoc server ":" (Nat.repr DEFAULT_PORT),
      (by decide : (":" ++ Nat.repr DEFAULT_PORT : String) = ":31401")]

/-! ## C4: error handling in checkUrl -/

/-- C4 (amended): a rejection named `AbortError` — produced exactly when
the 7000 ms timer aborts the request — classifies as `timeout` with detail
`"fetch timeout"`; any other rejection classifies as `timeout` with detail
the error message when it is non-empty, and otherwise `String(err)`
(`err.message || String(err)`); in both cases a classification is
returned, not an exception. -/
theorem c4_error_classify (name msg : String) :
    (name = "AbortError" →
      checkUrl (NetOutcome.err name msg) = ProbeResult.timeout "fetch timeout") ∧
    (name ≠ "AbortError" →
      checkUrl (NetOutcome.err name msg) =
        ProbeResult.timeout (if msg = "" then errString name msg else msg)) := by
  constructor <;> intro h <;> simp [checkUrl, h]

/-- C4 counterexample: a connection failure whose error message is the
empty string is classified `timeout` with detail `"TypeError"` (the
error's string representation), not the underlying (empty) message. -/
theorem c4_cex : checkUrl (NetOutcome.err "TypeError" "") = ProbeResult.timeout "TypeError" ∧
    ("TypeError" : String) ≠ "" := by decide

theorem c4_witness :
    checkUrl (NetOutcome.err "AbortError" "x") = ProbeResult.timeout "fetch timeout" ∧
    checkUrl (NetOutcome.err "Error" "boom") = ProbeResult.timeout "boom" := by
  refine ⟨(c4_error_classify "AbortError" "x").1 rfl, ?_⟩
  have h := (c4_error_classify "Error" "boom").2 (by decide)
  rw [if_neg (by decide : ¬ ("boom" : String) = "")] at h
  exact h

/-! ## C9: the substring pre-check -/

/-- C9 (amended): for every body containing both literal substrings
`_embedded` and `records`, `checkUrl` agrees (status and detail) with the
variant that parses and shape-checks directly without the substring
pre-check. Bodies that fail the pre-check can differ: a JSON text spelling
the `_embedded` key with escape sequences parses to the valid shape yet is
classified `novalid` by `checkUrl`, so the pre-check is not a pure
optimization. -/
theorem c9_precheck_agree (status : Nat) (body : String)
    (h1 : includesL body.data "_embedded".data = true)
    (h2 : includesL body.data "records".data = true) :
    checkUrl (NetOutcome.resp status body) = checkUrlDirect (NetOutcome.resp status body) := by
  by_cases hok : 200 ≤ status ∧ status ≤ 299 <;>
    simp [checkUrl, checkUrlDirect, checkBody, checkBodyDirect, hok, h1, h2]

/-- C9 counterexample: on a success response whose body spells the
`_embedded` key as `_embedded`, `checkUrl` says `novalid` while the
direct variant says `valid`: the statuses differ, so the pre-check is not
status-preserving on all bodies. -/
theorem c9_cex :
    checkUrl (NetOutcome.resp 200 bodyEscapedKey) =
      ProbeResult.novalid "no _embedded/records in response" ∧
    checkUrlDirect (NetOutcome.resp 200 bodyEscapedKey) = ProbeResult.valid "amount=1" ∧
    statusOf (checkUrl (NetOutcome.resp 200 bodyEscapedKey)) ≠
      statusOf (checkUrlDirect (NetOutcome.resp 200 bodyEscapedKey)) := by decide

theorem c9_witness :
    includesL bodyValid.data "_embedded".data = true ∧
    includesL bodyValid.data "records".data = true ∧
    checkUrl (NetOutcome.resp 200 bodyValid) = checkUrlDirect (NetOutcome.resp 200 bodyValid) :=
  ⟨by decide, by decide, c9_precheck_agree 200 bodyValid (by decide) (by decide)⟩

/-! ## C8: the structure-mismatch classification -/

theorem classifyParsed_mismatch (j : JsValue) (hs : validShape j = false)
    (ht : throwCase j = false) :
    classifyParsed j = ProbeResult.novalid "json but structure mismatch" := by
  unfold classifyParsed
  unfold validShape at hs
  unfold throwCase at ht
  by_cases htj : truthy j = true
  · rw [if_pos htj] at hs ht
    rw [if_pos htj]
    cases hje : jsGet j "_embedded" with
    | none => rfl
    | some e =>
      simp only [hje] at hs ht
      simp only []
      by_cases hte : truthy e = true
      · rw [if_pos hte] at hs ht
        rw [if_pos hte]
        cases hr : jsGet e "records" with
        | none => rfl
        | some v =>
          simp only [hr] at hs ht
          cases v with
          | arr recs =>
            cases recs with
            | nil => rfl
            | cons r rs =>
              have hs2 : (truthyOpt (jsGet r "asset") && truthyOpt (jsGet r "amount")) = false := hs
              cases r <;>
                first
                  | exact Bool.noConfusion (ht : (true : Bool) = false)
                  | exact if_neg (by simp [hs2])
          | null => rfl
          | bool b => rfl
          | num q => rfl
          | str s => rfl
          | obj ms => rfl
      · rw [if_neg hte]
  · rw [if_neg htj]

theorem checkBody_parsed (body : String) (j : JsValue)
    (h1 : includesL body.data "_embedded".data = true)
    (h2 : includesL body.data "records".data = true)
    (hp : jsonParse body = some j) :
    checkBody body = classifyParsed j := by
  unfold checkBody
  rw [h1, h2, hp]
  rfl

/-- C8 (amended): a success-status body that contains both literal
substrings `_embedded` and `records`, parses as JSON, does not match the
valid (truthy) shape, and whose first record (when one exists) is not JSON
`null`, is classified `novalid` with detail `"json but structure
mismatch"` — not `"structure mismatch"`. -/
theorem c8_mismatch_detail (status : Nat) (body : String) (j : JsValue)
    (hok : 200 ≤ status ∧ status ≤ 299)
    (h1 : includesL body.data "_embedded".data = true)
    (h2 : includesL body.data "records".data = true)
    (hp : jsonParse body = some j)
    (hs : validShape j = false) (ht : throwCase j = false) :
    checkUrl (NetOutcome.resp status body) = ProbeResult.novalid "json but structure mismatch" := by
  have hcb := checkBody_parsed body j h1 h2 hp
  simp only [checkUrl]
  rw [if_pos hok, hcb]
  exact classifyParsed_mismatch j hs ht

/-- C8 counterexample: a success body that parses as JSON with an empty
records array is classified `novalid` with detail
`"json but structure mismatch"`, while the claim predicts the detail
`"structure mismatch"`. -/
theorem c8_cex :
    checkUrl (NetOutcome.resp 200 bodyEmptyRecs) =
      ProbeResult.novalid "json but structure mismatch" ∧
    ("json but structure mismatch" : String) ≠ "structure mismatch" := by decide

theorem c8_witness :
    validShape jEmptyRecs = false ∧ throwCase jEmptyRecs = false ∧
    checkUrl (NetOutcome.resp 200 bodyEmptyRecs) =
      ProbeResult.novalid "json but structure mismatch" :=
  ⟨by decide, by decide,
    c8_mismatch_detail 200 bodyEmptyRecs jEmptyRecs (by decide) (by decide) (by decide) rfl
      (by decide) (by decide)⟩

/-! ## C1: the valid classification -/

/-- C1 (amended): for every probe whose response has a success status,
whose body contains the literal substrings `_embedded` and `records` and
parses as JSON to a truthy value with a truthy `_embedded` field whose
`records` field is a non-empty array, and whose first record has a truthy
`asset` field and a truthy `amount` field (truthy in the JavaScript
sense: present and none of `null`, `false`, `0`, `""`), `checkUrl`
classifies the probe as `valid` with detail `"amount="` followed by the
stringified amount value. -/
theorem c1_valid_truthy (status : Nat) (body : String) (j e r a : JsValue)
    (recs : List JsValue)
    (hok : 200 ≤ status ∧ status ≤ 299)
    (h1 : includesL body.data "_embedded".data = true)
    (h2 : includesL body.data "records".data = true)
    (hp : jsonParse body = some j)
    (htj : truthy j = true)
    (hje : jsGet j "_embedded" = some e)
    (hte : truthy e = true)
    (hr : jsGet e "records" = some (JsValue.arr (r :: recs)))
    (ha : truthyOpt (jsGet r "asset") = true)
    (hm : jsGet r "amount" = some a)
    (hta : truthy a = true) :
    checkUrl (NetOutcome.resp status body) =
      ProbeResult.valid ("amount=" ++ jsToString a) := by
  have hcb := checkBody_parsed body j h1 h2 hp
  simp only [checkUrl]
  rw [if_pos hok, hcb]
  unfold classifyParsed
  rw [if_pos htj]
  rw [hje]
  simp only []
  rw [if_pos hte, hr]
  cases r with
  | null => exact Bool.noConfusion (ha : false = true)
  | bool b =>
    have hcond : (truthyOpt (jsGet (JsValue.bool b) "asset") &&
        truthyOpt (jsGet (JsValue.bool b) "amount")) = true := by
      rw [ha, hm]; simp [truthyOpt, hta]
    refine (if_pos hcond).trans ?_
    simp [hm]
  | num q =>
    have hcond : (truthyOpt (jsGet (JsValue.num q) "asset") &&
        truthyOpt (jsGet (JsValue.num q) "amount")) = true := by
      rw [ha, hm]; simp [truthyOpt, hta]
    refine (if_pos hcond).trans ?_
    simp [hm]
  | str s =>
    have hcond : (truthyOpt (jsGet (JsValue.str s) "asset") &&
        truthyOpt (jsGet (JsValue.str s) "amount")) = true := by
      rw [ha, hm]; simp [truthyOpt, hta]
    refine (if_pos hcond).trans ?_
    simp [hm]
  | arr xs =>
    have hcond : (truthyOpt (jsGet (JsValue.arr xs) "asset") &&
        truthyOpt (jsGet (JsValue.arr xs) "amount")) = true := by
      rw [ha, hm]; simp [truthyOpt, hta]
    refine (if_pos hcond).trans ?_
    simp [hm]
  | obj ms =>
    have hcond : (truthyOpt (jsGet (JsValue.obj ms) "asset") &&
        truthyOpt (jsGet (JsValue.obj ms) "amount")) = true := by
      rw [ha, hm]; simp [truthyOpt, hta]
    refine (if_pos hcond).trans ?_
    simp [hm]

/-- C1 counterexample: a success body whose first record has both an
`asset` field and an `amount` field — as the claim requires — but with
`asset` the empty string is classified `novalid`, not `valid`: the code
tests `r.asset && r.amount` for truthiness, not presence. -/
theorem c1_cex :
    firstRecordHasAssetAmount bodyAssetEmpty = true ∧
    checkUrl (NetOutcome.resp 200 bodyAssetEmpty) =
      ProbeResult.novalid "json but structure mismatch" := by decide

theorem c1_witness :
    checkUrl (NetOutcome.resp 200 bodyValid) = ProbeResult.valid "amount=1" :=
  c1_valid_truthy 200 bodyValid jValid
    (JsValue.obj [("records",
      JsValue.arr [JsValue.obj [("asset", JsValue.str "a"), ("amount", JsValue.str "1")]])])
    (JsValue.obj [("asset", JsValue.str "a"), ("amount", JsValue.str "1")])
    (JsValue.str "1") []
    (by decide) (by decide) (by decide) rfl rfl rfl rfl rfl rfl rfl rfl

/-! ## Driver lemmas -/

theorem procWallets_validList (net : String → NetOutcome) (server : String)
    (ws : List String) (st : St) :
    ∃ ext, (procWallets net server ws st).validList = st.validList ++ ext := by
  induction ws generalizing st with
  | nil => exact ⟨[], by simp [procWallets]⟩
  | cons w ws ih =>
    rcases hr : checkUrl (net (buildUrl server w)) with d | d | d
    · exact ⟨[server], by simp [procWallets, hr, stepResult]⟩
    · obtain ⟨ext, he⟩ := ih (stepResult server w (ProbeResult.novalid d) st)
      refine ⟨ext, ?_⟩
      simp only [procWallets, hr]
      rw [he]
      simp [stepResult]
    · obtain ⟨ext, he⟩ := ih (stepResult server w (ProbeResult.timeout d) st)
      refine ⟨ext, ?_⟩
      simp only [procWallets, hr]
      rw [he]
      simp [stepResult]

theorem mem_validList_procWallets (net : String → NetOutcome) (server : String)
    (ws : List String) (st : St) (s : String) (h : s ∈ st.validList) :
    s ∈ (procWallets net server ws st).validList := by
  obtain ⟨ext, he⟩ := procWallets_validList net server ws st
  rw [he]
  exact List.mem_append_left _ h

theorem mem_validList_procServer (net : String → NetOutcome) (wallets : List String)
    (st : St) (x s : String) (h : s ∈ st.validList) :
    s ∈ (procServer net wallets st x).validList := by
  unfold procServer
  split
  · exact h
  · exact mem_validList_procWallets net x wallets st s h

theorem procServer_skip (net : String → NetOutcome) (wallets : List String)
    (st : St) (s : String) (h : s ∈ st.validList) :
    procServer net wallets st s = st := by
  unfold procServer
  rw [if_pos]
  simpa [List.contains] using h

theorem procWallets_events (net : String → NetOutcome) (server : String)
    (ws : List String) (st : St) :
    ∃ extra, (procWallets net server ws st).events = st.events ++ extra ∧
      ∀ ev ∈ extra, eventServer ev = server := by
  induction ws generalizing st with
  | nil => exact ⟨[], by simp [procWallets]⟩
  | cons w ws ih =>
    rcases hr : checkUrl (net (buildUrl server w)) with d | d | d
    · refine ⟨[Event.probe server w, Event.wValid server], ?_, ?_⟩
      · simp [procWallets, hr, stepResult]
      · intro ev hev
        fin_cases hev <;> simp [eventServer]
    · obtain ⟨extra, he, hall⟩ := ih (stepResult server w (ProbeResult.novalid d) st)
      refine ⟨[Event.probe server w, Event.wNovalid server w d] ++ extra, ?_, ?_⟩
      · simp only [procWallets, hr]
        rw [he]
        simp [stepResult]
      · intro ev hev
        rcases List.mem_append.mp hev with h | h
        · fin_cases h <;> simp [eventServer]
        · exact hall ev h
    · obtain ⟨extra, he, hall⟩ := ih (stepResult server w (ProbeResult.timeout d) st)
      refine ⟨[Event.probe server w, Event.wTimeout server d] ++ extra, ?_, ?_⟩
      · simp only [procWallets, hr]
        rw [he]
        simp [stepResult]
      · intro ev hev
        rcases List.mem_append.mp hev with h | h
        · fin_cases h <;> simp [eventServer]
        · exact hall ev h

theorem runServers_cons (net : String → NetOutcome) (wallets : List String)
    (x : String) (ss : List String) (st : St) :
    runServers net wallets (x :: ss) st = runServers net wallets ss (procServer net wallets st x) :=
  rfl

/-! ## C2: servers already in the loaded valid list are skipped -/

theorem c2_run_eq (net : String → NetOutcome) (wallets servers : List String)
    (st : St) (s : String) (h : s ∈ st.validList) :
    runServers net wallets servers st =
      runServers net wallets (servers.filter (fun x => x != s)) st := by
  induction servers generalizing st with
  | nil => rfl
  | cons x ss ih =>
    by_cases hx : x = s
    · subst hx
      rw [List.filter_cons_of_neg (by simp)]
      rw [runServers_cons, procServer_skip net wallets st x h]
      exact ih st h
    · rw [List.filter_cons_of_pos (by simp [hx]), runServers_cons, runServers_cons]
      exact ih (procServer net wallets st x) (mem_validList_procServer net wallets st x s h)

theorem c2_run_events (net : String → NetOutcome) (wallets servers : List String)
    (st : St) (s : String) (h : s ∈ st.validList) :
    ∃ extra, (runServers net wallets servers st).events = st.events ++ extra ∧
      ∀ ev ∈ extra, eventServer ev ≠ s := by
  induction servers generalizing st with
  | nil => exact ⟨[], by simp [runServers]⟩
  | cons x ss ih =>
    rw [runServers_cons]
    by_cases hx : x = s
    · subst hx
      rw [procServer_skip net wallets st x h]
      exact ih st h
    · obtain ⟨extra', he', hall'⟩ :=
        ih (procServer net wallets st x) (mem_validList_procServer net wallets st x s h)
      by_cases hin : st.validList.contains x
      · have hps : procServer net wallets st x = st := by
          unfold procServer
          rw [if_pos hin]
        refine ⟨extra', ?_, hall'⟩
        rw [he', hps]
      · obtain ⟨ex, hex, hexall⟩ := procWallets_events net x wallets st
        refine ⟨ex ++ extra', ?_, ?_⟩
        · rw [he']
          unfold procServer
          rw [if_neg hin, hex, List.append_assoc]
        · intro ev hev
          rcases List.mem_append.mp hev with hm | hm
          · rw [hexall ev hm]; exact hx
          · exact hall' ev hm

/-- C2: a server present in the valid list is skipped entirely: the whole
run is identical to the run with that server removed from the server list
(so it contributes nothing to any file or counter), and every event of
the run — probe or write — is about some other server. -/
theorem c2_skip_valid (net : String → NetOutcome) (wallets servers : List String)
    (st : St) (s : String) (h : s ∈ st.validList) :
    runServers net wallets servers st =
      runServers net wallets (servers.filter (fun x => x != s)) st ∧
    ∃ extra, (runServers net wallets servers st).events = st.events ++ extra ∧
      ∀ ev ∈ extra, eventServer ev ≠ s :=
  ⟨c2_run_eq net wallets servers st s h, c2_run_events net wallets servers st s h⟩

theorem c2_witness :
    ("a" ∈ stWithA.validList) ∧
    (runServers netDown ["w"] ["a", "b"] stWithA =
        runServers netDown ["w"] ((["a", "b"] : List String).filter (fun x => x != "a")) stWithA ∧
      ∃ extra, (runServers netDown ["w"] ["a", "b"] stWithA).events = stWithA.events ++ extra ∧
        ∀ ev ∈ extra, eventServer ev ≠ "a") :=
  ⟨by decide, c2_skip_valid netDown ["w"] ["a", "b"] stWithA "a" (by decide)⟩

/-! ## C6: counters sum to the number of issued probes -/

theorem countsInv_step (server wallet : String) (r : ProbeResult) (st : St)
    (h : countsInv st) : countsInv (stepResult server wallet r st) := by
  cases r <;>
    simp only [countsInv, stepResult, probeCount, List.countP_append] at h ⊢ <;>
    simp [List.countP_cons] <;> omega

theorem countsInv_procWallets (net : String → NetOutcome) (server : String)
    (ws : List String) (st : St) (h : countsInv st) :
    countsInv (procWallets net server ws st) := by
  induction ws generalizing st with
  | nil => exact h
  | cons w ws ih =>
    rcases hr : checkUrl (net (buildUrl server w)) with d | d | d
    · simp only [procWallets, hr]
      exact countsInv_step server w (ProbeResult.valid d) st h
    · simp only [procWallets, hr]
      exact ih _ (countsInv_step server w (ProbeResult.novalid d) st h)
    · simp only [procWallets, hr]
      exact ih _ (countsInv_step server w (ProbeResult.timeout d) st h)

theorem countsInv_procServer (net : String → NetOutcome) (wallets : List String)
    (st : St) (x : String) (h : countsInv st) :
    countsInv (procServer net wallets st x) := by
  unfold procServer
  split
  · exact h
  · exact countsInv_procWallets net x wallets st h

/-- C6: if the three counters sum to the number of probes issued so far,
that remains true after running the driver over any further list of
servers — each issued probe increments exactly one counter, skipped
servers contribute nothing, and nothing else touches the counters. Taking
an arbitrary starting state covers every intermediate point of a run. -/
theorem c6_counter_sum (net : String → NetOutcome) (wallets servers : List String)
    (st : St) (h : countsInv st) : countsInv (runServers net wallets servers st) := by
  induction servers generalizing st with
  | nil => exact h
  | cons x ss ih =>
    rw [runServers_cons]
    exact ih _ (countsInv_procServer net wallets st x h)

theorem c6_witness :
    countsInv stFresh ∧ countsInv (runServers netGood ["w1", "w2"] ["s1", "s2"] stFresh) :=
  ⟨by unfold countsInv; decide,
    c6_counter_sum netGood ["w1", "w2"] ["s1", "s2"] stFresh (by unfold countsInv; decide)⟩

/-! ## C3: the wallet loop stops at the first valid hit -/

theorem lastQ_append {α : Type} (l1 l2 : List α) (h : l2 ≠ []) :
    (l1 ++ l2).getLast? = l2.getLast? := by
  induction l1 with
  | nil => rfl
  | cons a t ih =>
    rw [List.cons_append]
    rcases h2 : t ++ l2 with _ | ⟨c, cs⟩
    · rcases List.append_eq_nil.mp h2 with ⟨-, h4⟩
      exact absurd h4 h
    · rw [← h2, ← ih]
      rw [h2, List.getLast?_cons_cons]

/-- C3: when wallet `w` at position `j` is the first wallet of the list
whose probe against `server` classifies `valid`, the wallet loop for
`server` behaves exactly like the loop over the first `j + 1` wallets:
every wallet up to and including `w` is probed (in order), the valid
write is the last event, the server is appended to the valid list, and no
later wallet is probed. -/
theorem c3_stop_on_valid (net : String → NetOutcome) (server : String)
    (wallets : List String) (st : St) (j : Nat) (w : String)
    (hw : wallets[j]? = some w)
    (hv : isValidRes (checkUrl (net (buildUrl server w))) = true)
    (hmin : ∀ k wk, k < j → wallets[k]? = some wk →
      isValidRes (checkUrl (net (buildUrl server wk))) = false) :
    procWallets net server wallets st = procWallets net server (wallets.take (j + 1)) st ∧
    ∃ extra, (procWallets net server wallets st).events = st.events ++ extra ∧
      probesOf extra = (wallets.take (j + 1)).map (fun x => (server, x)) ∧
      extra.getLast? = some (Event.wValid server) ∧
      (procWallets net server wallets st).validList = st.validList ++ [server] := by
  induction wallets generalizing j st with
  | nil => simp at hw
  | cons w0 ws ih =>
    cases j with
    | zero =>
      have hww : w = w0 := by
        have := hw
        simp at this
        exact this.symm
      subst hww
      rcases hr : checkUrl (net (buildUrl server w)) with d | d | d
      · refine ⟨by simp [procWallets, hr],
          ⟨[Event.probe server w, Event.wValid server], ?_, ?_, rfl, ?_⟩⟩
        · simp [procWallets, hr, stepResult]
        · simp [probesOf]
        · simp [procWallets, hr, stepResult]
      · rw [hr] at hv
        simp [isValidRes] at hv
      · rw [hr] at hv
        simp [isValidRes] at hv
    | succ k =>
      have h0 : isValidRes (checkUrl (net (buildUrl server w0))) = false :=
        hmin 0 w0 (Nat.succ_pos k) (by simp)
      have hw2 : ws[k]? = some w := by simpa using hw
      have hmin2 : ∀ k' wk, k' < k → ws[k']? = some wk →
          isValidRes (checkUrl (net (buildUrl server wk))) = false := by
        intro k' wk hk hwk
        exact hmin (k' + 1) wk (Nat.succ_lt_succ hk) (by simpa using hwk)
      rcases hr : checkUrl (net (buildUrl server w0)) with d | d | d
      · rw [hr] at h0
        simp [isValidRes] at h0
      · obtain ⟨heq, extra2, hev, hpr, hlast, hvl⟩ :=
          ih (stepResult server w0 (ProbeResult.novalid d) st) k hw2 hmin2
        have hne : extra2 ≠ [] := by
          intro hnil
          rw [hnil] at hlast
          simp at hlast
        constructor
        · rw [List.take_succ_cons]
          simp only [procWallets, hr]
          exact heq
        · refine ⟨[Event.probe server w0, Event.wNovalid server w0 d] ++ extra2, ?_, ?_, ?_, ?_⟩
          · simp only [procWallets, hr]
            rw [hev]
            simp [stepResult, List.append_assoc]
          · rw [List.take_succ_cons, List.map_cons]
            simp only [probesOf, List.filterMap_append] at hpr ⊢
            rw [hpr]
            rfl
          · rw [lastQ_append _ _ hne, hlast]
          · simp only [procWallets, hr]
            rw [hvl]
            simp [stepResult]
      · obtain ⟨heq, extra2, hev, hpr, hlast, hvl⟩ :=
          ih (stepResult server w0 (ProbeResult.timeout d) st) k hw2 hmin2
        have hne : extra2 ≠ [] := by
          intro hnil
          rw [hnil] at hlast
          simp at hlast
        constructor
        · rw [List.take_succ_cons]
          simp only [procWallets, hr]
          exact heq
        · refine ⟨[Event.probe server w0, Event.wTimeout server d] ++ extra2, ?_, ?_, ?_, ?_⟩
          · simp only [procWallets, hr]
            rw [hev]
            simp [stepResult, List.append_assoc]
          · rw [List.take_succ_cons, List.map_cons]
            simp only [probesOf, List.filterMap_append] at hpr ⊢
            rw [hpr]
            rfl
          · rw [lastQ_append _ _ hne, hlast]
          · simp only [procWallets, hr]
            rw [hvl]
            simp [stepResult]

theorem c3_witness :
    procWallets netGood "s" ["w1", "w2"] stFresh =
      procWallets netGood "s" ((["w1", "w2"] : List String).take 1) stFresh ∧
    ∃ extra, (procWallets netGood "s" ["w1", "w2"] stFresh).events = stFresh.events ++ extra ∧
      probesOf extra = ((["w1", "w2"] : List String).take 1).map (fun x => ("s", x)) ∧
      extra.getLast? = some (Event.wValid "s") ∧
      (procWallets netGood "s" ["w1", "w2"] stFresh).validList = stFresh.validList ++ ["s"] :=
  c3_stop_on_valid netGood "s" ["w1", "w2"] stFresh 0 "w1" rfl (by decide)
    (fun k wk hk _ => absurd hk (Nat.not_lt_zero k))

/-! ## Line-splitting lemmas for C7 -/

theorem splitOnNl_cons (c : Char) (cs : List Char) :
    splitOnNl (c :: cs) =
      if c = nlC then [] :: splitOnNl cs
      else
        match splitOnNl cs with
        | p :: ps => (c :: p) :: ps
        | [] => [[c]] := rfl

theorem splitOnNl_ne_nil (cs : List Char) : splitOnNl cs ≠ [] := by
  induction cs with
  | nil => simp [splitOnNl]
  | cons c rest ih =>
    rw [splitOnNl_cons c rest]
    split
    · simp
    · cases h : splitOnNl rest <;> simp

theorem splitOnNl_two_le (cs : List Char) (h : cs.getLast? = some nlC) :
    2 ≤ (splitOnNl cs).length := by
  induction cs with
  | nil => simp at h
  | cons c rest ih =>
    cases rest with
    | nil =>
      have hc : c = nlC := by simpa using h
      subst hc
      decide
    | cons c2 cs2 =>
      have h2 : (c2 :: cs2).getLast? = some nlC := by
        rw [List.getLast?_cons_cons] at h
        exact h
      have ih2 := ih h2
      rw [splitOnNl_cons c (c2 :: cs2)]
      split
      · simp only [List.length_cons]
        omega
      · cases hsr : splitOnNl (c2 :: cs2) with
        | nil => exact absurd hsr (splitOnNl_ne_nil _)
        | cons p ps =>
          show 2 ≤ ((c :: p) :: ps).length
          rw [hsr] at ih2
          simpa using ih2

theorem splitOnNl_getLast (cs : List Char) (h : cs.getLast? = some nlC) :
    (splitOnNl cs).getLast? = some [] := by
  induction cs with
  | nil => simp at h
  | cons c rest ih =>
    cases rest with
    | nil =>
      have hc : c = nlC := by simpa using h
      subst hc
      rfl
    | cons c2 cs2 =>
      have h2 : (c2 :: cs2).getLast? = some nlC := by
        rw [List.getLast?_cons_cons] at h
        exact h
      have ih2 := ih h2
      rw [splitOnNl_cons c (c2 :: cs2)]
      split
      · rw [show ([] :: splitOnNl (c2 :: cs2) : List (List Char)) =
            [[]] ++ splitOnNl (c2 :: cs2) from rfl,
          lastQ_append _ _ (splitOnNl_ne_nil _)]
        exact ih2
      · cases hsr : splitOnNl (c2 :: cs2) with
        | nil => exact absurd hsr (splitOnNl_ne_nil _)
        | cons p ps =>
          cases ps with
          | nil =>
            have hlen := splitOnNl_two_le (c2 :: cs2) h2
            rw [hsr] at hlen
            simp at hlen
          | cons p2 ps2 =>
            show ((c :: p) :: p2 :: ps2).getLast? = some []
            rw [List.getLast?_cons_cons]
            rw [hsr] at ih2
            rw [List.getLast?_cons_cons] at ih2
            exact ih2

theorem splitOnNl_append (a b : List Char) (ha : a = [] ∨ a.getLast? = some nlC) :
    splitOnNl (a ++ b) = (splitOnNl a).dropLast ++ splitOnNl b := by
  induction a with
  | nil => simp [splitOnNl]
  | cons c rest ih =>
    rcases ha with ha | ha
    · cases ha
    cases rest with
    | nil =>
      have hc : c = nlC := by simpa using ha
      subst hc
      show splitOnNl (nlC :: b) = (splitOnNl [nlC]).dropLast ++ splitOnNl b
      rw [splitOnNl_cons nlC b, if_pos rfl]
      rfl
    | cons c2 cs2 =>
      have ha2 : (c2 :: cs2).getLast? = some nlC := by
        rw [List.getLast?_cons_cons] at ha
        exact ha
      have ih2 := ih (Or.inr ha2)
      by_cases hc : c = nlC
      · subst hc
        rw [show ((nlC :: c2 :: cs2) ++ b) = nlC :: (c2 :: cs2 ++ b) from rfl]
        rw [splitOnNl_cons nlC (c2 :: cs2 ++ b), if_pos rfl]
        rw [splitOnNl_cons nlC (c2 :: cs2), if_pos rfl]
        rw [ih2]
        cases hsr : splitOnNl (c2 :: cs2) with
        | nil => exact absurd hsr (splitOnNl_ne_nil _)
        | cons p ps => rfl
      · rw [show ((c :: c2 :: cs2) ++ b) = c :: (c2 :: cs2 ++ b) from rfl]
        rw [splitOnNl_cons c (c2 :: cs2 ++ b), if_neg hc]
        rw [splitOnNl_cons c (c2 :: cs2), if_neg hc]
        rw [ih2]
        have hlen := splitOnNl_two_le (c2 :: cs2) ha2
        cases hsr : splitOnNl (c2 :: cs2) with
        | nil => exact absurd hsr (splitOnNl_ne_nil _)
        | cons p ps =>
          cases ps with
          | nil =>
            rw [hsr] at hlen
            simp at hlen
          | cons p2 ps2 => rfl

theorem stripSeps_append (P Q : List (List Char)) (hQ : Q ≠ []) :
    stripSeps (P ++ Q) = P.map stripOneCr ++ stripSeps Q := by
  induction P with
  | nil => simp
  | cons p P2 ih =>
    cases hPQ : P2 ++ Q with
    | nil =>
      rcases List.append_eq_nil.mp hPQ with ⟨-, h2⟩
      exact absurd h2 hQ
    | cons q t =>
      have h1 : stripSeps ((p :: P2) ++ Q) = stripOneCr p :: stripSeps (P2 ++ Q) := by
        rw [List.cons_append, hPQ]
        rfl
      rw [h1, ih]
      simp

theorem stripSeps_eq (P : List (List Char)) (h : P ≠ []) :
    stripSeps P = P.dropLast.map stripOneCr ++ [P.getLast h] := by
  induction P with
  | nil => exact absurd rfl h
  | cons p P2 ih =>
    cases P2 with
    | nil => rfl
    | cons q t =>
      have h2 : (q :: t : List (List Char)) ≠ [] := by simp
      show stripOneCr p :: stripSeps (q :: t) = _
      rw [ih h2]
      rw [List.dropLast_cons_of_ne_nil h2, List.map_cons, List.getLast_cons h2]
      rfl

theorem filtTrim_append (A B : List (List Char)) :
    filtTrim (A ++ B) = filtTrim A ++ filtTrim B := by
  simp [filtTrim, List.filter_append]

theorem parseLines_append (a b : String) (ha : endsNlB a = true) :
    parseLines (a ++ b) = parseLines a ++ parseLines b := by
  have ha2 : a.data = [] ∨ a.data.getLast? = some nlC := by
    unfold endsNlB at ha
    cases hl : a.data.getLast? with
    | none =>
      left
      exact List.getLast?_eq_none_iff.mp hl
    | some c =>
      right
      rw [hl] at ha
      have hcn : c = nlC := by simpa using ha
      rw [hcn]
  rcases ha2 with haz | hal
  · have hae : a = "" := by
      cases a with
      | mk d =>
        simp only at haz
        rw [haz]
    subst hae
    have hb : ("" ++ b) = b := rfl
    rw [hb]
    rfl
  · show filtTrim (stripSeps (splitOnNl (a ++ b).data)) =
      filtTrim (stripSeps (splitOnNl a.data)) ++ filtTrim (stripSeps (splitOnNl b.data))
    rw [String.data_append]
    rw [splitOnNl_append a.data b.data (Or.inr hal)]
    rw [stripSeps_append _ _ (splitOnNl_ne_nil _)]
    rw [filtTrim_append]
    congr 1
    have hP := splitOnNl_ne_nil a.data
    rw [stripSeps_eq _ hP, filtTrim_append]
    have hlast : (splitOnNl a.data).getLast hP = [] := by
      have h1 := splitOnNl_getLast a.data hal
      rw [List.getLast?_eq_getLast _ hP] at h1
      exact Option.some.inj h1
    rw [hlast]
    rw [show filtTrim [[]] = [] from rfl, List.append_nil]

theorem head_dropWhile_not {α : Type} (p : α → Bool) (l : List α) (x : α)
    (h : (l.dropWhile p).head? = some x) : p x = false := by
  induction l with
  | nil => simp [List.dropWhile] at h
  | cons a t ih =>
    rw [List.dropWhile_cons] at h
    split at h
    · exact ih h
    · next hpa =>
        have hax : a = x := by simpa using h
        subst hax
        simpa using hpa

theorem trimL_getLast_not_ws (l : List Char) (c : Char)
    (h : (jsTrimL l).getLast? = some c) : jsWsChar c = false := by
  unfold jsTrimL at h
  rw [List.getLast?_reverse] at h
  exact head_dropWhile_not _ _ _ h

theorem endsNl_concat_nl (x : String) : endsNlB (x ++ "\n") = true := by
  unfold endsNlB
  rw [String.data_append, lastQ_append _ _ (by decide : ("\n" : String).data ≠ [])]
  decide

theorem splitOnNl_nlfree_concat (t : List Char) (h : nlC ∉ t) :
    splitOnNl (t ++ nlC :: []) = [t, []] := by
  induction t with
  | nil => rfl
  | cons c t2 ih =>
    have hcnl : ¬ c = nlC := fun hceq => h (hceq ▸ List.mem_cons_self c t2)
    have ht : nlC ∉ t2 := fun hm => h (List.mem_cons_of_mem c hm)
    rw [show ((c :: t2) ++ nlC :: []) = c :: (t2 ++ nlC :: []) from rfl]
    rw [splitOnNl_cons c (t2 ++ nlC :: []), if_neg hcnl]
    rw [ih ht]

theorem parseLines_single_clean (s : String) (h : cleanTokB s = true) :
    parseLines (s ++ "\n") = [s] := by
  have h3 : nlC ∉ s.data := by
    have hcont : s.data.contains nlC = false := by
      simp only [cleanTokB, Bool.and_eq_true, Bool.not_eq_true'] at h
      exact h.2
    simp at hcont
    exact hcont
  have h1 : s ≠ "" := by
    simp only [cleanTokB, Bool.and_eq_true, bne_iff_ne, ne_eq] at h
    exact h.1.1
  have h2 : jsTrim s = s := by
    simp only [cleanTokB, Bool.and_eq_true, beq_iff_eq] at h
    exact h.1.2
  have hdata_eq : jsTrimL s.data = s.data := by
    have := congrArg String.data h2
    exact this
  have hscr : stripOneCr s.data = s.data := by
    unfold stripOneCr
    cases hgl : s.data.getLast? with
    | none => rfl
    | some c =>
      have hnw : jsWsChar c = false := by
        rw [← hdata_eq] at hgl
        exact trimL_getLast_not_ws s.data c hgl
      show (if c = crC then s.data.dropLast else s.data) = s.data
      rw [if_neg]
      intro hceq
      rw [hceq] at hnw
      exact absurd hnw (by decide)
  have hd : (s ++ "\n").data = s.data ++ (nlC :: []) := by
    rw [String.data_append]
    rfl
  show filtTrim (stripSeps (splitOnNl (s ++ "\n").data)) = [s]
  rw [hd]
  rw [splitOnNl_nlfree_concat s.data h3]
  show filtTrim [stripOneCr s.data, []] = [s]
  rw [hscr]
  have hmk : String.mk (jsTrimL s.data) = s := by rw [hdata_eq]
  simp [filtTrim, hmk, h1, show String.mk (jsTrimL []) = "" from rfl]

/-! ## C7: round-trip of valid.txt appends -/

theorem fileInv_step (server wallet : String) (r : ProbeResult) (st : St)
    (hc : cleanTokB server = true) (h : fileInv st) :
    fileInv (stepResult server wallet r st) := by
  obtain ⟨hnl, hmem⟩ := h
  cases r with
  | valid d =>
    have hsplit : parseLines (st.validFile ++ server ++ "\n") =
        parseLines st.validFile ++ [server] := by
      rw [String.append_assoc]
      rw [parseLines_append _ _ hnl]
      rw [parseLines_single_clean server hc]
    constructor
    · exact endsNl_concat_nl (st.validFile ++ server)
    · intro s hs
      show s ∈ parseLines (st.validFile ++ server ++ "\n")
      rw [hsplit]
      have hs2 : Event.wValid s ∈ st.events ++ [Event.probe server wallet, Event.wValid server] := hs
      rcases List.mem_append.mp hs2 with hold | hnew
      · exact List.mem_append_left _ (hmem s hold)
      · rcases List.mem_cons.mp hnew with heq | h2
        · simp at heq
        · have heq2 : Event.wValid s = Event.wValid server := by simpa using h2
          have : s = server := by injection heq2
          rw [this]
          exact List.mem_append_right _ (by simp)
  | novalid d =>
    constructor
    · exact hnl
    · intro s hs
      have hs2 : Event.wValid s ∈
          st.events ++ [Event.probe server wallet, Event.wNovalid server wallet d] := hs
      rcases List.mem_append.mp hs2 with hold | hnew
      · exact hmem s hold
      · rcases List.mem_cons.mp hnew with heq | h2
        · simp at heq
        · have := List.mem_singleton.mp h2
          simp at this
  | timeout d =>
    constructor
    · exact hnl
    · intro s hs
      have hs2 : Event.wValid s ∈
          st.events ++ [Event.probe server wallet, Event.wTimeout server d] := hs
      rcases List.mem_append.mp hs2 with hold | hnew
      · exact hmem s hold
      · rcases List.mem_cons.mp hnew with heq | h2
        · simp at heq
        · have := List.mem_singleton.mp h2
          simp at this

theorem fileInv_procWallets (net : String → NetOutcome) (server : String)
    (ws : List String) (st : St) (hc : cleanTokB server = true) (h : fileInv st) :
    fileInv (procWallets net server ws st) := by
  induction ws generalizing st with
  | nil => exact h
  | cons w ws ih =>
    rcases hr : checkUrl (net (buildUrl server w)) with d | d | d
    · simp only [procWallets, hr]
      exact fileInv_step server w (ProbeResult.valid d) st hc h
    · simp only [procWallets, hr]
      exact ih _ (fileInv_step server w (ProbeResult.novalid d) st hc h)
    · simp only [procWallets, hr]
      exact ih _ (fileInv_step server w (ProbeResult.timeout d) st hc h)

theorem fileInv_procServer (net : String → NetOutcome) (wallets : List String)
    (st : St) (x : String) (hc : cleanTokB x = true) (h : fileInv st) :
    fileInv (procServer net wallets st x) := by
  unfold procServer
  split
  · exact h
  · exact fileInv_procWallets net x wallets st hc h

theorem fileInv_runServers (net : String → NetOutcome) (wallets servers : List String)
    (st : St) (hclean : ∀ x ∈ servers, cleanTokB x = true) (h : fileInv st) :
    fileInv (runServers net wallets servers st) := by
  induction servers generalizing st with
  | nil => exact h
  | cons x ss ih =>
    rw [runServers_cons]
    exact ih _ (fun y hy => hclean y (List.mem_cons_of_mem x hy))
      (fileInv_procServer net wallets st x (hclean x (List.mem_cons_self x ss)) h)

/-- C7 (amended): provided the valid-file content satisfies the line
invariant at loop start — it ends at a line boundary (in particular when
the pre-existing `valid.txt` is empty, absent, or newline-terminated), and
servers already recorded as valid are recoverable — every server written
as valid during the run is recovered by re-reading the final `valid.txt`
with the loader, and a subsequent run whose loaded valid list is that
re-read therefore skips the server unchanged. The server strings come
from the `servers.txt` loader, hence are trimmed, non-empty and free of
newlines (`cleanTokB`). -/
theorem c7_roundtrip_nl (net : String → NetOutcome) (wallets servers : List String)
    (st : St) (hclean : ∀ x ∈ servers, cleanTokB x = true) (hinv : fileInv st) :
    ∀ s : String, Event.wValid s ∈ (runServers net wallets servers st).events →
      s ∈ parseLines (runServers net wallets servers st).validFile ∧
      ∀ (net2 : String → NetOutcome) (wallets2 : List String) (st2 : St),
        st2.validList = parseLines (runServers net wallets servers st).validFile →
        procServer net2 wallets2 st2 s = st2 := by
  intro s hs
  have hfin := fileInv_runServers net wallets servers st hclean hinv
  have hmem := hfin.2 s hs
  refine ⟨hmem, ?_⟩
  intro net2 wallets2 st2 hvl
  unfold procServer
  rw [if_pos]
  rw [hvl]
  simpa using hmem

/-- C7 counterexample: with a pre-existing `valid.txt` holding `"x"`
without a trailing newline, server `"srv"` is found valid during the run
(the `wValid` event is in the trace), yet re-reading the final `valid.txt`
yields `["xsrv"]` — the appended line merged with the unterminated last
line — so `"srv"` is not in the loaded valid list of a subsequent run and
is not skipped. -/
theorem c7_cex :
    Event.wValid "srv" ∈ (runServers netGood ["w"] ["srv"] stNoNl).events ∧
    cleanTokB "srv" = true ∧
    parseLines (runServers netGood ["w"] ["srv"] stNoNl).validFile = ["xsrv"] ∧
    ¬ ("srv" ∈ parseLines (runServers netGood ["w"] ["srv"] stNoNl).validFile) := by decide

theorem c7_witness :
    (∀ x ∈ (["srv"] : List String), cleanTokB x = true) ∧
    fileInv stFresh ∧
    ("srv" ∈ parseLines (runServers netGood ["w"] ["srv"] stFresh).validFile ∧
      ∀ (net2 : String → NetOutcome) (wallets2 : List String) (st2 : St),
        st2.validList = parseLines (runServers netGood ["w"] ["srv"] stFresh).validFile →
        procServer net2 wallets2 st2 "srv" = st2) := by
  have hclean : ∀ x ∈ (["srv"] : List String), cleanTokB x = true := by
    intro x hx
    have : x = "srv" := by simpa using hx
    rw [this]
    decide
  have hinv : fileInv stFresh := by
    constructor
    · decide
    · intro s hs
      exact absurd hs (List.not_mem_nil _)
  exact ⟨hclean, hinv,
    c7_roundtrip_nl netGood ["w"] ["srv"] stFresh hclean hinv "srv" (by decide)⟩

/-! ## C10: fatal setup failures touch no files -/

/-- C10: when `servers.txt` or `wallets.txt` is missing, or either parses
to an empty list, `main` exits with code 1 with the file system exactly as
it found it: the input checks (scan.js lines 61-79) run before `valid.txt`
is read and before `novalid.txt` and `timeout.txt` are truncated (lines
84-96), so no output file is touched on the fatal paths. -/
theorem c10_fatal_untouched (net : String → NetOutcome) (fs : FS)
    (h : fs.serversTxt = none ∨ fs.walletsTxt = none ∨
      (∃ sr, fs.serversTxt = some sr ∧ parseLines sr = []) ∨
      (∃ wr, fs.walletsTxt = some wr ∧ parseLines wr = [])) :
    runMain net fs = MainOut.fatal 1 fs := by
  unfold runMain
  rcases h with h | h | ⟨sr, hsr, hp⟩ | ⟨wr, hwr, hp⟩
  · rw [h]
  · cases hs : fs.serversTxt with
    | none => rfl
    | some sr =>
      rw [h]
  · rw [hsr]
    cases hw : fs.walletsTxt with
    | none => rfl
    | some wr =>
      exact if_pos (by rw [hp]; rfl)
  · cases hs : fs.serversTxt with
    | none => rfl
    | some sr =>
      rw [hwr]
      by_cases hse : (parseLines sr).isEmpty = true
      · exact if_pos hse
      · exact (if_neg hse).trans (if_pos (by rw [hp]; rfl))

theorem c10_witness :
    fsNoServers.serversTxt = none ∧ runMain netDown fsNoServers = MainOut.fatal 1 fsNoServers :=
  ⟨rfl, c10_fatal_untouched netDown fsNoServers (Or.inl rfl)⟩
